import Mathlib

/-!
Verification development for the starfield animation program
(`hello_Starfield.py`).

The program keeps four per-LED arrays (`star_current`, `star_target`,
`star_hue`, `star_sat`), eases each current brightness toward its target
each frame (`update_stars`), and occasionally runs a comet animation
(`run_comet`) that repaints the background, draws a quadratic-falloff
trail, and boosts `star_current` at passed-over positions (afterglow).

The embedding below models brightness values as rationals, the LED
arrays as functions `Fin N → ℚ` (with the strip length `N` a parameter,
instantiated by the configured `NUM_LEDS`), random draws as explicit
arguments, driver `set_hsv` calls as an emitted list of `Write` records,
and the comet while-loop as a fuel-indexed recursion returning `Option`
(`none` = fuel exhausted, which the termination theorem rules out for
the actual entry/exit bounds).
-/

namespace Starfield

/-- Configuration constant `NUM_LEDS = 66`. -/
def NUM_LEDS : ℕ := 66

/-- Configuration constant `STAR_MIN_BRIGHT = 0.02`. -/
def STAR_MIN_BRIGHT : ℚ := 0.02

/-- Configuration constant `STAR_MAX_BRIGHT = 0.8`. -/
def STAR_MAX_BRIGHT : ℚ := 0.8

/-- Configuration constant `STAR_FADE_SPEED = 0.01`. -/
def STAR_FADE_SPEED : ℚ := 0.01

/-- Configuration constant `STAR_NEW_TARGET_CHANCE = 0.01`. -/
def STAR_NEW_TARGET_CHANCE : ℚ := 0.01

/-- Configuration constant `STAR_SATURATION_MAX = 0.05`. -/
def STAR_SATURATION_MAX : ℚ := 0.05

/-- Configuration constant `AFTERGLOW_MAX = 0.4`. -/
def AFTERGLOW_MAX : ℚ := 0.4

/-- Configuration constant `COMET_HUE = 220 / 360.0`. -/
def COMET_HUE : ℚ := 220 / 360

/-- Configuration constant `COMET_SAT = 0.1`. -/
def COMET_SAT : ℚ := 0.1

/-- Configuration constant `COMET_MIN_TRAIL = 3`. -/
def COMET_MIN_TRAIL : ℕ := 3

/-- Configuration constant `COMET_MAX_TRAIL = 8`. -/
def COMET_MAX_TRAIL : ℕ := 8

/-- One `led_strip.set_hsv(idx, hue, sat, val)` driver call.  The index is
kept as an integer exactly as the caller computes it, so that the claim
that all emitted indices are in range is a real statement. -/
structure Write where
  idx : ℤ
  hue : ℚ
  sat : ℚ
  val : ℚ
deriving DecidableEq, Repr

/-- The per-LED star state: the four parallel arrays `star_current`,
`star_target`, `star_hue`, `star_sat` of the source, over a strip of
length `N`. -/
@[ext]
structure StarState (N : ℕ) where
  current : Fin N → ℚ
  target : Fin N → ℚ
  hue : Fin N → ℚ
  sat : Fin N → ℚ

/-- The random draws one `update_stars()` call consumes: for each star,
the `random()` draw deciding a target resample, and the `uniform(0, 1)`
draw inside `random_star_brightness` used when it fires. -/
structure Draws (N : ℕ) where
  resample : Fin N → ℚ
  newTarget : Fin N → ℚ

/-- `random_star_brightness()` with the `uniform(0.0, 1.0)` draw `x`
made explicit: square the draw, then map into the brightness range. -/
def random_star_brightness (x : ℚ) : ℚ :=
  STAR_MIN_BRIGHT + (x * x) * (STAR_MAX_BRIGHT - STAR_MIN_BRIGHT)

/-- The easing step of `update_stars()`: move `cur` toward `tgt` by
`STAR_FADE_SPEED`, clamping at the target on overshoot. -/
def easeStep (cur tgt : ℚ) : ℚ :=
  if cur < tgt then
    (if tgt < cur + STAR_FADE_SPEED then tgt else cur + STAR_FADE_SPEED)
  else if tgt < cur then
    (if cur - STAR_FADE_SPEED < tgt then tgt else cur - STAR_FADE_SPEED)
  else cur

/-- One iteration of the `update_stars()` loop body at star `i`:
maybe resample the target, ease the current brightness, store both, and
emit the `set_hsv(i, star_hue[i], star_sat[i], cur)` draw call. -/
def updateStep (N : ℕ) (d : Draws N) (acc : StarState N × List Write)
    (i : Fin N) : StarState N × List Write :=
  let st := acc.1
  let tgt :=
    if d.resample i < STAR_NEW_TARGET_CHANCE then
      random_star_brightness (d.newTarget i)
    else st.target i
  let cur := easeStep (st.current i) tgt
  (⟨Function.update st.current i cur, Function.update st.target i tgt,
      st.hue, st.sat⟩,
    acc.2 ++ [⟨((i : ℕ) : ℤ), st.hue i, st.sat i, cur⟩])

/-- `update_stars()`: the fused loop over all stars, in index order. -/
def update_stars (N : ℕ) (d : Draws N) (s : StarState N) :
    StarState N × List Write :=
  (List.finRange N).foldl (updateStep N d) (s, [])

/-- The target brightness star `i` has after the resample phase,
expressed pointwise on the pre-state (used by the two-phase spec-side
description of `update_stars`). -/
def newTargetSpec (N : ℕ) (d : Draws N) (s : StarState N) (i : Fin N) : ℚ :=
  if d.resample i < STAR_NEW_TARGET_CHANCE then
    random_star_brightness (d.newTarget i)
  else s.target i

/-- Modelled from the spec (§4.1/§4.3 decomposition): first update all
`N` stars (resample-maybe then ease, pointwise on the pre-state), then
render all `N` stars in index order.  This is the comparison definition
for the refinement claim about the fused loop. -/
def update_stars_spec (N : ℕ) (d : Draws N) (s : StarState N) :
    StarState N × List Write :=
  let s2 : StarState N :=
    ⟨fun i => easeStep (s.current i) (newTargetSpec N d s i),
      fun i => newTargetSpec N d s i, s.hue, s.sat⟩
  (s2, (List.finRange N).map
    (fun (i : Fin N) => ⟨((i : ℕ) : ℤ), s.hue i, s.sat i, s2.current i⟩))

/-- `frac = (trail_len - k) / float(trail_len)` for trail offset `k`. -/
def cometFrac (L k : ℕ) : ℚ := ((L : ℚ) - (k : ℚ)) / (L : ℚ)

/-- One iteration of the comet trail loop body at offset `k`: if the
position `head - k * direction` is on-strip, emit the comet pixel write
and apply the clamped afterglow boost to `star_current`. -/
def glowStep (N L : ℕ) (sign : ℤ) (hb : ℚ) (head : ℤ)
    (acc : StarState N × List Write) (k : ℕ) : StarState N × List Write :=
  let pos : ℤ := head - (k : ℤ) * sign
  if h : 0 ≤ pos ∧ pos < (N : ℤ) then
    let frac := cometFrac L k
    let comet_b := hb * (frac * frac)
    let tail_sat := COMET_SAT * frac
    let p : Fin N := ⟨pos.toNat, by omega⟩
    let glow_boost := comet_b * AFTERGLOW_MAX
    let new_star_b := min (acc.1.current p + glow_boost) STAR_MAX_BRIGHT
    (⟨Function.update acc.1.current p new_star_b, acc.1.target,
        acc.1.hue, acc.1.sat⟩,
      acc.2 ++ [⟨pos, COMET_HUE, tail_sat, comet_b⟩])
  else acc

/-- The background pass of one comet sub-frame: draw every star with its
current brightness. -/
def bgWrites (N : ℕ) (s : StarState N) : List Write :=
  (List.finRange N).map
    (fun (i : Fin N) => ⟨((i : ℕ) : ℤ), s.hue i, s.sat i, s.current i⟩)

/-- One comet sub-frame: repaint the background, then run the trail loop
over offsets `0 ≤ k < trail_len`. -/
def cometSubframe (N L : ℕ) (sign : ℤ) (hb : ℚ) (head : ℤ)
    (s : StarState N) : StarState N × List Write :=
  (List.range L).foldl (glowStep N L sign hb head) (s, bgWrites N s)

/-- The `while head != end` loop of `run_comet`, with explicit fuel:
returns the list of visited head positions, the final star state and the
concatenated driver writes, or `none` if the fuel runs out first. -/
def cometLoop (N L : ℕ) (sign : ℤ) (hb : ℚ) (endPos : ℤ) :
    ℕ → ℤ → StarState N → Option (List ℤ × StarState N × List Write)
  | 0, head, s => if head = endPos then some ([], s, []) else none
  | fuel + 1, head, s =>
      if head = endPos then some ([], s, [])
      else
        let r := cometSubframe N L sign hb head s
        (cometLoop N L sign hb endPos fuel (head + sign) r.1).map
          (fun q => (head :: q.1, q.2.1, r.2 ++ q.2.2))

/-- `run_comet()` with the draws made explicit: `trailDraw` is the
`randrange(COMET_MIN_TRAIL, COMET_MAX_TRAIL + 1)` result (clamped to the
strip length as in the source), `dirDraw` the `randrange(2)` result
(`0` = forward).  The fuel `N + 2 * trail_len` is exactly the number of
sub-frames of a full traversal. -/
def run_comet (N trailDraw dirDraw : ℕ) (hb : ℚ) (s : StarState N) :
    Option (List ℤ × StarState N × List Write) :=
  let trail_len := if N < trailDraw then N else trailDraw
  let direction : ℤ := if dirDraw = 0 then 1 else -1
  if direction = 1 then
    cometLoop N trail_len 1 hb ((N : ℤ) + trail_len)
      (N + 2 * trail_len) (-(trail_len : ℤ)) s
  else
    cometLoop N trail_len (-1) hb (-(trail_len : ℤ))
      (N + 2 * trail_len) ((N : ℤ) + trail_len) s

/-- The brightness range invariant of the spec: every star current and
target brightness lies in `[STAR_MIN_BRIGHT, STAR_MAX_BRIGHT]`. -/
def InRange (N : ℕ) (s : StarState N) : Prop :=
  ∀ i : Fin N,
    STAR_MIN_BRIGHT ≤ s.current i ∧ s.current i ≤ STAR_MAX_BRIGHT ∧
      STAR_MIN_BRIGHT ≤ s.target i ∧ s.target i ≤ STAR_MAX_BRIGHT

instance (N : ℕ) (s : StarState N) : Decidable (InRange N s) := by
  unfold InRange; infer_instance

/-- The comet pixel write emitted for trail offset `k`. -/
def cometWrite (L : ℕ) (sign : ℤ) (hb : ℚ) (head : ℤ) (k : ℕ) : Write :=
  ⟨head - (k : ℤ) * sign, COMET_HUE, COMET_SAT * cometFrac L k,
    hb * (cometFrac L k * cometFrac L k)⟩

/-- Concrete star state on a strip of length 2 used by witnesses. -/
def wS2 : StarState 2 := ⟨fun _ => 0.5, fun _ => 0.5, fun _ => 0.5, fun _ => 0⟩

/-- Concrete draw record on a strip of length 2 used by witnesses: the
resample draw 1 never fires, the brightness draw is 1/2. -/
def wD2 : Draws 2 := ⟨fun _ => 1, fun _ => 1/2⟩

/-- Concrete star state on a strip of length 3 used by witnesses. -/
def wS3 : StarState 3 := ⟨fun _ => 0.3, fun _ => 0.3, fun _ => 0.3, fun _ => 0⟩

/-- Concrete star state on a strip of length 10 used by the scenario-C
evaluation. -/
def wS10 : StarState 10 := ⟨fun _ => 0.1, fun _ => 0.1, fun _ => 0.6, fun _ => 0⟩

/-! ## Basic facts about the easing step -/

lemma STAR_FADE_SPEED_pos : (0 : ℚ) < STAR_FADE_SPEED := by
  norm_num [STAR_FADE_SPEED]

/-- One easing step shrinks the distance to the target by
`STAR_FADE_SPEED`, down to zero. -/
lemma ease_dist (c t : ℚ) :
    |easeStep c t - t| ≤ max (|c - t| - STAR_FADE_SPEED) 0 := by
  have hs := STAR_FADE_SPEED_pos
  unfold easeStep
  split_ifs with h1 h2 h3 h4
  · simp
  · rw [abs_of_nonpos (by linarith), abs_of_nonpos (by linarith)]
    exact le_max_of_le_left (by linarith)
  · simp
  · rw [abs_of_nonneg (by linarith), abs_of_nonneg (by linarith)]
    exact le_max_of_le_left (by linarith)
  · have hct : c = t := le_antisymm (not_lt.mp h3) (not_lt.mp h1)
    subst hct
    simp

/-- Iterating the easing step `n` times reaches the target whenever the
initial gap is at most `n` fade steps. -/
lemma ease_reach (t : ℚ) (n : ℕ) :
    ∀ c : ℚ, |c - t| ≤ (n : ℚ) * STAR_FADE_SPEED →
      (fun x => easeStep x t)^[n] c = t := by
  induction n with
  | zero =>
      intro c h
      have h0 : |c - t| ≤ 0 := by simpa using h
      have h1 : c - t = 0 := abs_eq_zero.mp (le_antisymm h0 (abs_nonneg _))
      simp only [Function.iterate_zero, id]
      linarith
  | succ n ih =>
      intro c h
      rw [Function.iterate_succ_apply]
      apply ih
      have hd := ease_dist c t
      have hsp := STAR_FADE_SPEED_pos
      have h1 : |c - t| - STAR_FADE_SPEED ≤ (n : ℚ) * STAR_FADE_SPEED := by
        push_cast at h
        linarith
      have h2 : (0 : ℚ) ≤ (n : ℚ) * STAR_FADE_SPEED :=
        mul_nonneg (Nat.cast_nonneg n) hsp.le
      exact le_trans hd (max_le h1 h2)

/-- The target is a fixed point of the easing step. -/
lemma ease_fixed (t : ℚ) : easeStep t t = t := by
  simp [easeStep]

/-- C2: with the target held fixed, iterating the easing step of
`update_stars()` makes the current brightness equal to the target within
`⌈|t − c| / STAR_FADE_SPEED⌉` calls, and once equal it stays equal on
every further call. -/
theorem C2_ease_convergence (c t : ℚ) :
    (fun x => easeStep x t)^[(⌈|t - c| / STAR_FADE_SPEED⌉).toNat] c = t ∧
      (∀ m : ℕ, (fun x => easeStep x t)^[m] t = t) := by
  constructor
  · apply ease_reach
    have hs := STAR_FADE_SPEED_pos
    have hq : (0 : ℚ) ≤ |t - c| / STAR_FADE_SPEED :=
      div_nonneg (abs_nonneg _) hs.le
    have hceil : (0 : ℤ) ≤ ⌈|t - c| / STAR_FADE_SPEED⌉ := Int.ceil_nonneg hq
    have hcast : ((⌈|t - c| / STAR_FADE_SPEED⌉.toNat : ℕ) : ℚ)
        = ((⌈|t - c| / STAR_FADE_SPEED⌉ : ℤ) : ℚ) := by
      exact_mod_cast Int.toNat_of_nonneg hceil
    rw [abs_sub_comm, hcast]
    have hle : |t - c| / STAR_FADE_SPEED
        ≤ ((⌈|t - c| / STAR_FADE_SPEED⌉ : ℤ) : ℚ) := Int.le_ceil _
    have := mul_le_mul_of_nonneg_right hle hs.le
    calc |t - c| = |t - c| / STAR_FADE_SPEED * STAR_FADE_SPEED := by
          field_simp
      _ ≤ ((⌈|t - c| / STAR_FADE_SPEED⌉ : ℤ) : ℚ) * STAR_FADE_SPEED := this
  · intro m
    induction m with
    | zero => simp
    | succ m ih => rw [Function.iterate_succ_apply', ih, ease_fixed]

/-- C7: `random_star_brightness()` maps the uniform draw `x` to
`STAR_MIN_BRIGHT + x² × (STAR_MAX_BRIGHT − STAR_MIN_BRIGHT)`; for every
draw in `[0, 1]` the result lies in
`[STAR_MIN_BRIGHT, STAR_MAX_BRIGHT]` and is at most the unbiased linear
value `STAR_MIN_BRIGHT + x × (STAR_MAX_BRIGHT − STAR_MIN_BRIGHT)`. -/
theorem C7_random_star_brightness_bias (x : ℚ) (h0 : 0 ≤ x) (h1 : x ≤ 1) :
    random_star_brightness x
        = STAR_MIN_BRIGHT + x * x * (STAR_MAX_BRIGHT - STAR_MIN_BRIGHT) ∧
      STAR_MIN_BRIGHT ≤ random_star_brightness x ∧
      random_star_brightness x ≤ STAR_MAX_BRIGHT ∧
      random_star_brightness x
        ≤ STAR_MIN_BRIGHT + x * (STAR_MAX_BRIGHT - STAR_MIN_BRIGHT) := by
  refine ⟨by unfold random_star_brightness; ring, ?_, ?_, ?_⟩ <;>
    unfold random_star_brightness STAR_MIN_BRIGHT STAR_MAX_BRIGHT <;>
    nlinarith

/-! ## Characterization of the fused update loop -/

/-- The loop body of `update_stars()` computed on explicit components:
pure unfolding of `updateStep`. -/
lemma updateStep_eq (N : ℕ) (d : Draws N) (st : StarState N)
    (ws : List Write) (a : Fin N) :
    updateStep N d (st, ws) a =
      (⟨Function.update st.current a
          (easeStep (st.current a)
            (if d.resample a < STAR_NEW_TARGET_CHANCE then
              random_star_brightness (d.newTarget a)
            else st.target a)),
        Function.update st.target a
          (if d.resample a < STAR_NEW_TARGET_CHANCE then
            random_star_brightness (d.newTarget a)
          else st.target a),
        st.hue, st.sat⟩,
        ws ++ [⟨((a : ℕ) : ℤ), st.hue a, st.sat a,
          (easeStep (st.current a)
            (if d.resample a < STAR_NEW_TARGET_CHANCE then
              random_star_brightness (d.newTarget a)
            else st.target a))⟩]) := rfl

/-- Folding the `update_stars()` body over a duplicate-free index list
updates exactly the listed stars, pointwise on the pre-state `s`, and
appends one driver write per listed star, in order. -/
lemma update_foldl (N : ℕ) (d : Draws N) (s : StarState N) :
    ∀ (l : List (Fin N)) (st : StarState N) (ws : List Write),
      l.Nodup →
      (∀ i ∈ l, st.current i = s.current i) →
      (∀ i ∈ l, st.target i = s.target i) →
      st.hue = s.hue → st.sat = s.sat →
      l.foldl (updateStep N d) (st, ws) =
        (⟨fun i => if i ∈ l then
              easeStep (s.current i) (newTargetSpec N d s i)
            else st.current i,
          fun i => if i ∈ l then newTargetSpec N d s i else st.target i,
          st.hue, st.sat⟩,
          ws ++ l.map (fun (i : Fin N) =>
            ⟨((i : ℕ) : ℤ), s.hue i, s.sat i,
              easeStep (s.current i) (newTargetSpec N d s i)⟩)) := by
  intro l
  induction l with
  | nil =>
      intro st ws _ _ _ _ _
      simp only [List.foldl_nil, List.not_mem_nil, if_false, List.map_nil,
        List.append_nil]
  | cons a l ih =>
      intro st ws hnd hc ht hh hs2
      have hca : st.current a = s.current a := hc a (List.mem_cons_self a l)
      have hta : st.target a = s.target a := ht a (List.mem_cons_self a l)
      have hal : a ∉ l := (List.nodup_cons.mp hnd).1
      have hndl : l.Nodup := (List.nodup_cons.mp hnd).2
      rw [List.foldl_cons, updateStep_eq]
      have hT : (if d.resample a < STAR_NEW_TARGET_CHANCE then
            random_star_brightness (d.newTarget a)
          else st.target a) = newTargetSpec N d s a := by
        unfold newTargetSpec
        rw [hta]
      rw [hT, hca, hh, hs2]
      rw [ih _ _ hndl ?hc ?ht ?hh ?hs]
      case hc =>
        intro i hil
        have hia : i ≠ a := fun he => hal (he ▸ hil)
        show Function.update st.current a
          (easeStep (s.current a) (newTargetSpec N d s a)) i = s.current i
        rw [Function.update_noteq hia]
        exact hc i (List.mem_cons_of_mem a hil)
      case ht =>
        intro i hil
        have hia : i ≠ a := fun he => hal (he ▸ hil)
        show Function.update st.target a (newTargetSpec N d s a) i = s.target i
        rw [Function.update_noteq hia]
        exact ht i (List.mem_cons_of_mem a hil)
      case hh => rfl
      case hs => rfl
      simp only [Prod.mk.injEq]
      constructor
      · apply StarState.ext
        · funext i
          by_cases hil : i ∈ l
          · simp [hil, List.mem_cons]
          · by_cases hia : i = a
            · subst hia
              simp [hal, List.mem_cons, Function.update_same]
            · simp [hil, hia, List.mem_cons, Function.update_noteq hia]
        · funext i
          by_cases hil : i ∈ l
          · simp [hil, List.mem_cons]
          · by_cases hia : i = a
            · subst hia
              simp [hal, List.mem_cons, Function.update_same]
            · simp [hil, hia, List.mem_cons, Function.update_noteq hia]
        · rfl
        · rfl
      · simp

/-- Shared helper: the fused `update_stars()` loop equals the two-phase
description (update all stars pointwise, then render all stars). -/
lemma update_stars_eq_two_phase (N : ℕ) (d : Draws N) (s : StarState N) :
    update_stars N d s = update_stars_spec N d s := by
  unfold update_stars update_stars_spec
  rw [update_foldl N d s (List.finRange N) s [] (List.nodup_finRange N)
    (fun _ _ => rfl) (fun _ _ => rfl) rfl rfl]
  simp [List.mem_finRange]

/-! ## Range preservation -/

lemma random_star_brightness_mem (x : ℚ) (h0 : 0 ≤ x) (h1 : x ≤ 1) :
    STAR_MIN_BRIGHT ≤ random_star_brightness x ∧
      random_star_brightness x ≤ STAR_MAX_BRIGHT := by
  unfold random_star_brightness STAR_MIN_BRIGHT STAR_MAX_BRIGHT
  constructor <;> nlinarith

lemma newTargetSpec_mem (N : ℕ) (d : Draws N) (s : StarState N) (i : Fin N)
    (hd : 0 ≤ d.newTarget i ∧ d.newTarget i ≤ 1)
    (hs : STAR_MIN_BRIGHT ≤ s.target i ∧ s.target i ≤ STAR_MAX_BRIGHT) :
    STAR_MIN_BRIGHT ≤ newTargetSpec N d s i ∧
      newTargetSpec N d s i ≤ STAR_MAX_BRIGHT := by
  unfold newTargetSpec
  split_ifs
  · exact random_star_brightness_mem _ hd.1 hd.2
  · exact hs

/-- The easing step stays inside the brightness range when both its
arguments are inside it. -/
lemma easeStep_mem (cur tgt : ℚ)
    (hc1 : STAR_MIN_BRIGHT ≤ cur) (hc2 : cur ≤ STAR_MAX_BRIGHT)
    (ht1 : STAR_MIN_BRIGHT ≤ tgt) (ht2 : tgt ≤ STAR_MAX_BRIGHT) :
    STAR_MIN_BRIGHT ≤ easeStep cur tgt ∧ easeStep cur tgt ≤ STAR_MAX_BRIGHT := by
  have hs := STAR_FADE_SPEED_pos
  unfold easeStep
  split_ifs <;> constructor <;> linarith

/-- Pointwise predicates survive a `Function.update` whose new value
satisfies them. -/
lemma update_forall {N : ℕ} (P : ℚ → Prop) (f : Fin N → ℚ) (p : Fin N)
    (v : ℚ) (hf : ∀ i, P (f i)) (hv : P v) :
    ∀ i, P (Function.update f p v i) := by
  intro i
  rcases eq_or_ne i p with h | h
  · subst h
    rw [Function.update_same]
    exact hv
  · rw [Function.update_noteq h]
    exact hf i

/-- A single afterglow step keeps every star inside the brightness
range, provided the head brightness is nonnegative. -/
lemma glowStep_inRange (N L : ℕ) (sign : ℤ) (hb : ℚ) (head : ℤ)
    (acc : StarState N × List Write) (k : ℕ) (hhb : 0 ≤ hb)
    (h : InRange N acc.1) : InRange N (glowStep N L sign hb head acc k).1 := by
  have hboost : 0 ≤ hb * (cometFrac L k * cometFrac L k) * AFTERGLOW_MAX :=
    mul_nonneg (mul_nonneg hhb (mul_self_nonneg _))
      (by norm_num [AFTERGLOW_MAX])
  simp only [glowStep]
  split
  · intro i
    refine ⟨?_, ?_, (h i).2.2.1, (h i).2.2.2⟩
    · refine (update_forall
        (fun v => STAR_MIN_BRIGHT ≤ v ∧ v ≤ STAR_MAX_BRIGHT)
        acc.1.current _ _ (fun j => ⟨(h j).1, (h j).2.1⟩) ⟨?_, ?_⟩ i).1
      · refine le_min (le_trans (h _).1 (le_add_of_nonneg_right hboost)) ?_
        norm_num [STAR_MIN_BRIGHT, STAR_MAX_BRIGHT]
      · exact min_le_right _ _
    · refine (update_forall
        (fun v => STAR_MIN_BRIGHT ≤ v ∧ v ≤ STAR_MAX_BRIGHT)
        acc.1.current _ _ (fun j => ⟨(h j).1, (h j).2.1⟩) ⟨?_, ?_⟩ i).2
      · refine le_min (le_trans (h _).1 (le_add_of_nonneg_right hboost)) ?_
        norm_num [STAR_MIN_BRIGHT, STAR_MAX_BRIGHT]
      · exact min_le_right _ _
  · exact h

/-- Folding afterglow steps over any offset list preserves the
brightness range invariant. -/
lemma glowFold_inRange (N L : ℕ) (sign : ℤ) (hb : ℚ) (head : ℤ)
    (hhb : 0 ≤ hb) :
    ∀ (l : List ℕ) (acc : StarState N × List Write), InRange N acc.1 →
      InRange N ((l.foldl (glowStep N L sign hb head) acc).1) := by
  intro l
  induction l with
  | nil => intro acc h; exact h
  | cons a l ih =>
      intro acc h
      rw [List.foldl_cons]
      exact ih _ (glowStep_inRange N L sign hb head acc a hhb h)

/-- A whole comet sub-frame preserves the brightness range invariant. -/
lemma cometSubframe_inRange (N L : ℕ) (sign : ℤ) (hb : ℚ) (head : ℤ)
    (s : StarState N) (hhb : 0 ≤ hb) (hs : InRange N s) :
    InRange N (cometSubframe N L sign hb head s).1 :=
  glowFold_inRange N L sign hb head hhb _ _ hs

/-- `update_stars()` preserves the brightness range invariant when the
resample draws come from `[0, 1]`. -/
lemma update_stars_inRange (N : ℕ) (d : Draws N) (s : StarState N)
    (hs : InRange N s) (hd : ∀ i, 0 ≤ d.newTarget i ∧ d.newTarget i ≤ 1) :
    InRange N (update_stars N d s).1 := by
  rw [update_stars_eq_two_phase]
  intro i
  have htgt := newTargetSpec_mem N d s i (hd i) ⟨(hs i).2.2.1, (hs i).2.2.2⟩
  have hease := easeStep_mem (s.current i) (newTargetSpec N d s i)
    (hs i).1 (hs i).2.1 htgt.1 htgt.2
  exact ⟨hease.1, hease.2, htgt.1, htgt.2⟩

/-- C1: starting from a state whose current and target brightnesses all
lie in `[STAR_MIN_BRIGHT, STAR_MAX_BRIGHT]` (and with resample draws
from `[0, 1]` and a nonnegative comet head brightness), both arrays stay
in that range after an `update_stars()` call, after each single clamped
afterglow write, and after a whole comet sub-frame. -/
theorem C1_brightness_invariant (N L : ℕ) (d : Draws N) (s : StarState N)
    (sign head : ℤ) (hb : ℚ) (ws : List Write) (k : ℕ)
    (hs : InRange N s)
    (hd : ∀ i, 0 ≤ d.newTarget i ∧ d.newTarget i ≤ 1)
    (hhb : 0 ≤ hb) :
    InRange N (update_stars N d s).1 ∧
      InRange N (glowStep N L sign hb head (s, ws) k).1 ∧
      InRange N (cometSubframe N L sign hb head s).1 :=
  ⟨update_stars_inRange N d s hs hd,
    glowStep_inRange N L sign hb head (s, ws) k hhb hs,
    cometSubframe_inRange N L sign hb head s hhb hs⟩

/-- Witness for C1 at a concrete in-range state on a strip of length 2,
with trail length 1, forward direction, head at 0, head brightness 1. -/
theorem C1_brightness_invariant_witness :
    InRange 2 (update_stars 2 wD2 wS2).1 ∧
      InRange 2 (glowStep 2 1 1 1 0 (wS2, []) 0).1 ∧
      InRange 2 (cometSubframe 2 1 1 1 0 wS2).1 :=
  C1_brightness_invariant 2 1 wD2 wS2 1 0 1 [] 0
    (of_decide_eq_true (by with_unfolding_all rfl)) (of_decide_eq_true (by with_unfolding_all rfl)) (by norm_num)

/-- C10: the fused per-star loop of `update_stars()` (resample-maybe,
ease, then immediately draw star `i` before touching star `i+1`) is
equivalent to the two-phase decomposition that first updates all `N`
stars and then renders all `N` stars: same final arrays and the same
driver write sequence. -/
theorem C10_fused_loop_equals_two_phase (N : ℕ) (d : Draws N)
    (s : StarState N) : update_stars N d s = update_stars_spec N d s :=
  update_stars_eq_two_phase N d s

/-! ## The comet trail loop, pointwise -/

lemma glowStep_target (N L : ℕ) (sign : ℤ) (hb : ℚ) (head : ℤ)
    (acc : StarState N × List Write) (k : ℕ) :
    (glowStep N L sign hb head acc k).1.target = acc.1.target ∧
      (glowStep N L sign hb head acc k).1.hue = acc.1.hue ∧
      (glowStep N L sign hb head acc k).1.sat = acc.1.sat := by
  simp only [glowStep]
  split <;> exact ⟨rfl, rfl, rfl⟩

lemma glowFold_target (N L : ℕ) (sign : ℤ) (hb : ℚ) (head : ℤ) :
    ∀ (l : List ℕ) (acc : StarState N × List Write),
      (l.foldl (glowStep N L sign hb head) acc).1.target = acc.1.target ∧
        (l.foldl (glowStep N L sign hb head) acc).1.hue = acc.1.hue ∧
        (l.foldl (glowStep N L sign hb head) acc).1.sat = acc.1.sat := by
  intro l
  induction l with
  | nil => intro acc; exact ⟨rfl, rfl, rfl⟩
  | cons a l ih =>
      intro acc
      rw [List.foldl_cons]
      refine ⟨?_, ?_, ?_⟩
      · rw [(ih _).1, (glowStep_target N L sign hb head acc a).1]
      · rw [(ih _).2.1, (glowStep_target N L sign hb head acc a).2.1]
      · rw [(ih _).2.2, (glowStep_target N L sign hb head acc a).2.2]

lemma glowStep_snd (N L : ℕ) (sign : ℤ) (hb : ℚ) (head : ℤ)
    (acc : StarState N × List Write) (k : ℕ) :
    (glowStep N L sign hb head acc k).2 =
      acc.2 ++
        (if 0 ≤ head - (k : ℤ) * sign ∧ head - (k : ℤ) * sign < (N : ℤ) then
          [cometWrite L sign hb head k]
        else []) := by
  simp only [glowStep, cometWrite]
  split_ifs with h
  · rfl
  · simp

/-- The writes of the comet trail fold: the incoming writes followed by
one comet pixel write per on-strip offset, in offset order. -/
lemma glowFold_snd (N L : ℕ) (sign : ℤ) (hb : ℚ) (head : ℤ) :
    ∀ (l : List ℕ) (acc : StarState N × List Write),
      (l.foldl (glowStep N L sign hb head) acc).2 =
        acc.2 ++
          (l.filter (fun (k : ℕ) =>
            decide (0 ≤ head - (k : ℤ) * sign ∧
              head - (k : ℤ) * sign < (N : ℤ)))).map
            (cometWrite L sign hb head) := by
  intro l
  induction l with
  | nil => intro acc; simp
  | cons a l ih =>
      intro acc
      rw [List.foldl_cons, ih, glowStep_snd, List.filter_cons]
      by_cases h : 0 ≤ head - (a : ℤ) * sign ∧ head - (a : ℤ) * sign < (N : ℤ)
      · rw [if_pos h, if_pos (decide_eq_true h), List.map_cons,
          List.append_assoc, List.singleton_append]
      · rw [if_neg h,
          if_neg (by simp only [decide_eq_true_eq]; exact h), List.append_nil]

/-- Offsets hit distinct positions when the direction sign is `±1`. -/
lemma trailPos_inj (sign : ℤ) (hsgn : sign = 1 ∨ sign = -1) (head : ℤ)
    (k q : ℕ) (h : head - (k : ℤ) * sign = head - (q : ℤ) * sign) : k = q := by
  rcases hsgn with h1 | h1 <;> subst h1 <;> omega

/-- A trail step at an offset whose position differs from `p` leaves
`star_current[p]` alone. -/
lemma glowStep_current_ne (N L : ℕ) (sign : ℤ) (hb : ℚ) (head : ℤ)
    (acc : StarState N × List Write) (k : ℕ) (p : Fin N)
    (hne : ((p : ℕ) : ℤ) ≠ head - (k : ℤ) * sign) :
    (glowStep N L sign hb head acc k).1.current p = acc.1.current p := by
  simp only [glowStep]
  split
  case isTrue h =>
    refine Function.update_noteq ?_ _ _
    intro he
    apply hne
    have : ((p : ℕ) : ℤ) = ((head - (k : ℤ) * sign).toNat : ℤ) := by
      exact_mod_cast congrArg (fun q : Fin N => ((q : ℕ) : ℤ)) he
    rw [this, Int.toNat_of_nonneg h.1]
  case isFalse => rfl

lemma glowFold_current_ne (N L : ℕ) (sign : ℤ) (hb : ℚ) (head : ℤ) :
    ∀ (l : List ℕ) (acc : StarState N × List Write) (p : Fin N),
      (∀ k ∈ l, ((p : ℕ) : ℤ) ≠ head - (k : ℤ) * sign) →
      (l.foldl (glowStep N L sign hb head) acc).1.current p = acc.1.current p := by
  intro l
  induction l with
  | nil => intro acc p _; rfl
  | cons a l ih =>
      intro acc p hp
      rw [List.foldl_cons, ih _ _ (fun k hk => hp k (List.mem_cons_of_mem a hk)),
        glowStep_current_ne N L sign hb head acc a p (hp a (List.mem_cons_self a l))]

/-- If offset `k` of the trail hits position `p`, the fold sets
`star_current[p]` to the clamped afterglow value computed from what
`star_current[p]` was before the fold. -/
lemma glowFold_current_hit (N L : ℕ) (sign : ℤ) (hb : ℚ) (head : ℤ)
    (v : ℚ) (hsgn : sign = 1 ∨ sign = -1) :
    ∀ (l : List ℕ), l.Nodup →
      ∀ (acc : StarState N × List Write) (p : Fin N) (k : ℕ), k ∈ l →
        ((p : ℕ) : ℤ) = head - (k : ℤ) * sign →
        acc.1.current p = v →
        (l.foldl (glowStep N L sign hb head) acc).1.current p =
          min (v + hb * (cometFrac L k * cometFrac L k) * AFTERGLOW_MAX)
            STAR_MAX_BRIGHT := by
  intro l
  induction l with
  | nil => intro _ acc p k hk; exact absurd hk (List.not_mem_nil k)
  | cons a l ih =>
      intro hnd acc p k hk hp hv
      have hal : a ∉ l := (List.nodup_cons.mp hnd).1
      have hndl : l.Nodup := (List.nodup_cons.mp hnd).2
      rw [List.foldl_cons]
      rcases List.mem_cons.mp hk with hka | hkl
      · subst hka
        rw [glowFold_current_ne N L sign hb head l _ p ?hrest]
        case hrest =>
          intro q hq hpq
          exact hal (trailPos_inj sign hsgn head k q (hp ▸ hpq) ▸ hq)
        have hcond : 0 ≤ head - (k : ℤ) * sign ∧
            head - (k : ℤ) * sign < (N : ℤ) := by
          constructor
          · rw [← hp]; exact Int.natCast_nonneg _
          · rw [← hp]; exact_mod_cast p.isLt
        have hfin : (⟨(head - (k : ℤ) * sign).toNat, by omega⟩ : Fin N) = p := by
          apply Fin.ext
          have : ((p : ℕ) : ℤ) = ((head - (k : ℤ) * sign).toNat : ℤ) := by
            rw [hp, Int.toNat_of_nonneg hcond.1]
          exact_mod_cast this.symm
        show (glowStep N L sign hb head acc k).1.current p = _
        simp only [glowStep]
        rw [dif_pos hcond]
        show Function.update acc.1.current _ _ p = _
        rw [hfin, Function.update_same, hv]
      · have hka : k ≠ a := fun he => hal (he ▸ hkl)
        have hpa : ((p : ℕ) : ℤ) ≠ head - (a : ℤ) * sign := by
          intro he
          exact hka (trailPos_inj sign hsgn head k a (hp ▸ he))
        refine ih hndl _ p k hkl hp ?_
        rw [glowStep_current_ne N L sign hb head acc a p hpa, hv]

/-! ## The comet traversal -/

/-- Forward traversal: with fuel equal to the remaining distance, the
comet while-loop terminates and visits exactly the heads
`head, head + 1, …, endPos − 1`. -/
lemma cometLoop_fwd (N L : ℕ) (hb : ℚ) (endPos : ℤ) :
    ∀ (fuel : ℕ) (head : ℤ) (s : StarState N),
      head + (fuel : ℤ) = endPos →
      ∃ t ws, cometLoop N L 1 hb endPos fuel head s
        = some ((List.range fuel).map (fun (j : ℕ) => head + (j : ℤ)), t, ws) := by
  intro fuel
  induction fuel with
  | zero =>
      intro head s h
      refine ⟨s, [], ?_⟩
      simp only [cometLoop]
      rw [if_pos (by push_cast at h; omega)]
      simp
  | succ fuel ih =>
      intro head s h
      have hne : head ≠ endPos := by push_cast at h; omega
      obtain ⟨t, ws, heq⟩ :=
        ih (head + 1) (cometSubframe N L 1 hb head s).1 (by push_cast at h ⊢; omega)
      refine ⟨t, (cometSubframe N L 1 hb head s).2 ++ ws, ?_⟩
      simp only [cometLoop]
      rw [if_neg hne, heq]
      simp only [Option.map_some']
      have hheads : (List.range (fuel + 1)).map (fun (j : ℕ) => head + (j : ℤ))
          = head :: (List.range fuel).map (fun (j : ℕ) => (head + 1) + (j : ℤ)) := by
        rw [List.range_succ_eq_map, List.map_cons, List.map_map]
        refine congrArg₂ _ (by push_cast; ring) ?_
        refine List.map_congr_left ?_
        intro j hj
        show head + ((j + 1 : ℕ) : ℤ) = head + 1 + (j : ℤ)
        push_cast
        ring
      rw [hheads]

/-- Backward traversal: with fuel equal to the remaining distance, the
comet while-loop terminates and visits exactly the heads
`head, head − 1, …, endPos + 1`. -/
lemma cometLoop_bwd (N L : ℕ) (hb : ℚ) (endPos : ℤ) :
    ∀ (fuel : ℕ) (head : ℤ) (s : StarState N),
      head - (fuel : ℤ) = endPos →
      ∃ t ws, cometLoop N L (-1) hb endPos fuel head s
        = some ((List.range fuel).map (fun (j : ℕ) => head - (j : ℤ)), t, ws) := by
  intro fuel
  induction fuel with
  | zero =>
      intro head s h
      refine ⟨s, [], ?_⟩
      simp only [cometLoop]
      rw [if_pos (by push_cast at h; omega)]
      simp
  | succ fuel ih =>
      intro head s h
      have hne : head ≠ endPos := by push_cast at h; omega
      obtain ⟨t, ws, heq⟩ :=
        ih (head + (-1)) (cometSubframe N L (-1) hb head s).1
          (by push_cast at h ⊢; omega)
      refine ⟨t, (cometSubframe N L (-1) hb head s).2 ++ ws, ?_⟩
      simp only [cometLoop]
      rw [if_neg hne, heq]
      simp only [Option.map_some']
      have hheads : (List.range (fuel + 1)).map (fun (j : ℕ) => head - (j : ℤ))
          = head :: (List.range fuel).map (fun (j : ℕ) => (head + (-1)) - (j : ℤ)) := by
        rw [List.range_succ_eq_map, List.map_cons, List.map_map]
        refine congrArg₂ _ (by push_cast; ring) ?_
        refine List.map_congr_left ?_
        intro j hj
        show head - ((j + 1 : ℕ) : ℤ) = head + (-1) - (j : ℤ)
        push_cast
        ring
      rw [hheads]

/-- C3: the comet pixel written for trail offset `k` carries brightness
`H × ((L−k)/L)²` and saturation `COMET_SAT × (L−k)/L`, and the
brightness strictly decreases as the offset grows (for a positive head
brightness). -/
theorem C3_trail_shape (N L k q : ℕ) (sign head : ℤ) (hb : ℚ)
    (s : StarState N) (hkL : k < L) (hhb : 0 < hb) :
    cometFrac L k = ((L : ℚ) - (k : ℚ)) / (L : ℚ) ∧
      (0 ≤ head - (k : ℤ) * sign → head - (k : ℤ) * sign < (N : ℤ) →
        (⟨head - (k : ℤ) * sign, COMET_HUE, COMET_SAT * cometFrac L k,
            hb * (cometFrac L k * cometFrac L k)⟩ : Write)
          ∈ (cometSubframe N L sign hb head s).2) ∧
      (k < q → q < L →
        hb * (cometFrac L q * cometFrac L q)
          < hb * (cometFrac L k * cometFrac L k)) := by
  have hL0 : (0 : ℚ) < (L : ℚ) := by exact_mod_cast (by omega : 0 < L)
  refine ⟨rfl, ?_, ?_⟩
  · intro h1 h2
    unfold cometSubframe
    rw [glowFold_snd]
    apply List.mem_append_right
    apply List.mem_map.mpr
    refine ⟨k, ?_, rfl⟩
    apply List.mem_filter.mpr
    exact ⟨List.mem_range.mpr hkL, decide_eq_true ⟨h1, h2⟩⟩
  · intro hkq hqL
    have hkq2 : (k : ℚ) < (q : ℚ) := by exact_mod_cast hkq
    have hqL2 : (q : ℚ) < (L : ℚ) := by exact_mod_cast hqL
    have h1 : 0 < cometFrac L q := div_pos (by linarith) hL0
    have h2 : cometFrac L q < cometFrac L k := by
      unfold cometFrac
      rw [div_lt_div_iff₀ hL0 hL0]
      nlinarith
    have h3 : cometFrac L q * cometFrac L q < cometFrac L k * cometFrac L k := by
      nlinarith
    exact mul_lt_mul_of_pos_left h3 hhb

/-- Witness for C3 on a strip of length 3 with trail length 2, head
brightness 1/2, head at 1, forward: the full conclusion at the head
offset `k = 0` (paired with `q = 1`), and the on-strip pixel write of
the last trail offset `k = L − 1 = 1`. -/
theorem C3_trail_shape_witness :
    (cometFrac 2 0 = ((2 : ℚ) - (0 : ℚ)) / (2 : ℚ) ∧
      (0 ≤ (1 : ℤ) - (0 : ℤ) * 1 → (1 : ℤ) - (0 : ℤ) * 1 < (3 : ℤ) →
        (⟨(1 : ℤ) - (0 : ℤ) * 1, COMET_HUE, COMET_SAT * cometFrac 2 0,
            (1 / 2 : ℚ) * (cometFrac 2 0 * cometFrac 2 0)⟩ : Write)
          ∈ (cometSubframe 3 2 1 (1/2) 1 wS3).2) ∧
      ((0 : ℕ) < 1 → (1 : ℕ) < 2 →
        (1 / 2 : ℚ) * (cometFrac 2 1 * cometFrac 2 1)
          < (1 / 2 : ℚ) * (cometFrac 2 0 * cometFrac 2 0))) ∧
    (⟨(1 : ℤ) - (1 : ℤ) * 1, COMET_HUE, COMET_SAT * cometFrac 2 1,
        (1 / 2 : ℚ) * (cometFrac 2 1 * cometFrac 2 1)⟩ : Write)
      ∈ (cometSubframe 3 2 1 (1/2) 1 wS3).2 :=
  ⟨C3_trail_shape 3 2 0 1 1 1 (1/2) wS3 (by omega) (by norm_num),
    (C3_trail_shape 3 2 1 0 1 1 (1/2) wS3 (by omega) (by norm_num)).2.1
      (by omega) (by omega)⟩

/-- C5: during a comet sub-frame, the afterglow write at each on-strip
trail position sets `star_current[pos]` to
`min(star_current[pos] + comet_brightness × AFTERGLOW_MAX,
STAR_MAX_BRIGHT)`, and no comet sub-frame modifies `star_target`,
`star_hue` or `star_sat` anywhere. -/
theorem C5_afterglow_effect (N L : ℕ) (sign head : ℤ) (hb : ℚ)
    (s : StarState N) (hsgn : sign = 1 ∨ sign = -1) :
    (∀ k : ℕ, k < L → ∀ p : Fin N, ((p : ℕ) : ℤ) = head - (k : ℤ) * sign →
        (cometSubframe N L sign hb head s).1.current p =
          min (s.current p +
              hb * (cometFrac L k * cometFrac L k) * AFTERGLOW_MAX)
            STAR_MAX_BRIGHT) ∧
      (cometSubframe N L sign hb head s).1.target = s.target ∧
      (cometSubframe N L sign hb head s).1.hue = s.hue ∧
      (cometSubframe N L sign hb head s).1.sat = s.sat := by
  constructor
  · intro k hk p hp
    exact glowFold_current_hit N L sign hb head (s.current p) hsgn
      (List.range L) (List.nodup_range L) (s, bgWrites N s) p k
      (List.mem_range.mpr hk) hp rfl
  · exact glowFold_target N L sign hb head (List.range L) (s, bgWrites N s)

/-- Witness for C5: on a strip of length 3, trail length 2, forward
comet with head at 1, offset `k = 1` hits position 0. -/
theorem C5_afterglow_effect_witness :
    (cometSubframe 3 2 1 (1/2) 1 wS3).1.current ⟨0, by omega⟩ =
      min (wS3.current ⟨0, by omega⟩ +
          (1/2 : ℚ) * (cometFrac 2 1 * cometFrac 2 1) * AFTERGLOW_MAX)
        STAR_MAX_BRIGHT :=
  (C5_afterglow_effect 3 2 1 1 (1/2) wS3 (Or.inl rfl)).1 1 (by omega)
    ⟨0, by omega⟩ (by decide)

/-- C4: a comet spawned forward visits head positions `−L, …, N + L − 1`
in steps of `+1` with no skip or repeat; the backward run visits
`N + L, …, −L + 1` in steps of `−1` (exclusive exit bound `−L`). -/
theorem C4_full_traversal (N L : ℕ) (hb : ℚ) (s : StarState N)
    (hL : L ≤ N) :
    (∃ q, run_comet N L 0 hb s = some q ∧
        q.1 = (List.range (N + 2 * L)).map
          (fun (j : ℕ) => -((L : ℕ) : ℤ) + (j : ℤ))) ∧
      (∃ q, run_comet N L 1 hb s = some q ∧
        q.1 = (List.range (N + 2 * L)).map
          (fun (j : ℕ) => (((N : ℕ) : ℤ) + ((L : ℕ) : ℤ)) - (j : ℤ))) := by
  have hrc0 : run_comet N L 0 hb s =
      cometLoop N L 1 hb ((N : ℤ) + (L : ℤ)) (N + 2 * L) (-((L : ℕ) : ℤ)) s := by
    simp only [run_comet]
    rw [if_neg (not_lt.mpr hL)]
    norm_num
  have hrc1 : run_comet N L 1 hb s =
      cometLoop N L (-1) hb (-((L : ℕ) : ℤ)) (N + 2 * L) ((N : ℤ) + (L : ℤ)) s := by
    simp only [run_comet]
    rw [if_neg (not_lt.mpr hL)]
    norm_num
  constructor
  · obtain ⟨t, ws, heq⟩ := cometLoop_fwd N L hb ((N : ℤ) + (L : ℤ))
      (N + 2 * L) (-((L : ℕ) : ℤ)) s (by push_cast; ring)
    exact ⟨_, by rw [hrc0, heq], rfl⟩
  · obtain ⟨t, ws, heq⟩ := cometLoop_bwd N L hb (-((L : ℕ) : ℤ))
      (N + 2 * L) ((N : ℤ) + (L : ℤ)) s (by push_cast; ring)
    exact ⟨_, by rw [hrc1, heq], rfl⟩

/-- Witness for C4 on a strip of length 2 with trail length 1. -/
theorem C4_full_traversal_witness :
    (∃ q, run_comet 2 1 0 1 wS2 = some q ∧
        q.1 = (List.range (2 + 2 * 1)).map
          (fun (j : ℕ) => -(((1 : ℕ)) : ℤ) + (j : ℤ))) ∧
      (∃ q, run_comet 2 1 1 1 wS2 = some q ∧
        q.1 = (List.range (2 + 2 * 1)).map
          (fun (j : ℕ) => ((((2 : ℕ)) : ℤ) + (((1 : ℕ)) : ℤ)) - (j : ℤ))) :=
  C4_full_traversal 2 1 1 wS2 (by omega)

/-- C9: for any trail length `L ≤ N` and either direction draw, the
comet sub-frame loop terminates, executing exactly `N + 2 L`
sub-frames. -/
theorem C9_termination_subframe_count (N L dd : ℕ) (hb : ℚ)
    (s : StarState N) (_h1 : 1 ≤ L) (hL : L ≤ N) :
    ∃ q, run_comet N L dd hb s = some q ∧ q.1.length = N + 2 * L := by
  by_cases hdd : dd = 0
  · subst hdd
    have hrc : run_comet N L 0 hb s =
        cometLoop N L 1 hb ((N : ℤ) + (L : ℤ)) (N + 2 * L) (-((L : ℕ) : ℤ)) s := by
      simp only [run_comet]
      rw [if_neg (not_lt.mpr hL)]
      norm_num
    obtain ⟨t, ws, heq⟩ := cometLoop_fwd N L hb ((N : ℤ) + (L : ℤ))
      (N + 2 * L) (-((L : ℕ) : ℤ)) s (by push_cast; ring)
    exact ⟨_, by rw [hrc, heq], by simp⟩
  · have hrc : run_comet N L dd hb s =
        cometLoop N L (-1) hb (-((L : ℕ) : ℤ)) (N + 2 * L) ((N : ℤ) + (L : ℤ)) s := by
      simp only [run_comet]
      rw [if_neg (not_lt.mpr hL), if_neg hdd]
      norm_num
    obtain ⟨t, ws, heq⟩ := cometLoop_bwd N L hb (-((L : ℕ) : ℤ))
      (N + 2 * L) ((N : ℤ) + (L : ℤ)) s (by push_cast; ring)
    exact ⟨_, by rw [hrc, heq], by simp⟩

/-- Witness for C9 on a strip of length 2 with trail length 1,
forward direction draw. -/
theorem C9_termination_subframe_count_witness :
    ∃ q, run_comet 2 1 0 1 wS2 = some q ∧ q.1.length = 2 + 2 * 1 :=
  C9_termination_subframe_count 2 1 0 1 wS2 (by omega) (by omega)

/-- C8: every index passed to the driver write list — by the star loop
of `update_stars()` or by a comet sub-frame (background repaint and
range-guarded trail writes) — lies in `[0, N)`. -/
theorem C8_indices_in_range (N L : ℕ) (d : Draws N) (s : StarState N)
    (sign head : ℤ) (hb : ℚ) :
    (∀ w ∈ (update_stars N d s).2, 0 ≤ w.idx ∧ w.idx < (N : ℤ)) ∧
      (∀ w ∈ (cometSubframe N L sign hb head s).2,
        0 ≤ w.idx ∧ w.idx < (N : ℤ)) := by
  constructor
  · intro w hw
    rw [update_stars_eq_two_phase] at hw
    unfold update_stars_spec at hw
    simp only [List.mem_map] at hw
    obtain ⟨i, _, rfl⟩ := hw
    refine ⟨Int.natCast_nonneg _, ?_⟩
    show ((i : ℕ) : ℤ) < (N : ℤ)
    exact_mod_cast i.isLt
  · intro w hw
    unfold cometSubframe at hw
    rw [glowFold_snd] at hw
    rcases List.mem_append.mp hw with hbg | hcw
    · unfold bgWrites at hbg
      simp only [List.mem_map] at hbg
      obtain ⟨i, _, rfl⟩ := hbg
      refine ⟨Int.natCast_nonneg _, ?_⟩
      show ((i : ℕ) : ℤ) < (N : ℤ)
      exact_mod_cast i.isLt
    · simp only [List.mem_map] at hcw
      obtain ⟨k, hk, rfl⟩ := hcw
      have hcond := of_decide_eq_true (List.mem_filter.mp hk).2
      exact ⟨hcond.1, hcond.2⟩

/-- Witness for C8: the first driver write of a concrete
`update_stars()` call on a strip of length 2 has index in `[0, 2)`. -/
theorem C8_indices_in_range_witness :
    0 ≤ (⟨0, 1/2, 0, 1/2⟩ : Write).idx ∧
      (⟨0, 1/2, 0, 1/2⟩ : Write).idx < (2 : ℤ) :=
  (C8_indices_in_range 2 1 wD2 wS2 1 0 1).1 ⟨0, 1/2, 0, 1/2⟩
    (of_decide_eq_true (by with_unfolding_all rfl))

/-- Counterexample to C6 as stated: for the scenario comet
(`trail_length = 4`, `head_brightness = 0.8`, forward, strip length 10)
at `head_position = 0`, the single on-strip trail write is the one of
offset `k = 0` with brightness `0.8 × 1² = 0.8`; offset `k = 3` sits at
position `−3`, which is off-strip, and the written brightness is not
`0.05`. -/
theorem C6_scenario_as_stated_false :
    (cometSubframe 10 4 1 (0.8) 0 wS10).2.drop 10
      = [⟨0 - 0 * 1, COMET_HUE, COMET_SAT * cometFrac 4 0,
          (0.8 : ℚ) * (cometFrac 4 0 * cometFrac 4 0)⟩] ∧
      ((0 : ℤ) - 3 * 1 = -3 ∧ ¬ (0 ≤ (-3 : ℤ))) ∧
      (0.8 : ℚ) * (cometFrac 4 0 * cometFrac 4 0) ≠ (0.05 : ℚ) := by
  refine ⟨by with_unfolding_all rfl, by decide, ?_⟩
  intro h
  norm_num [cometFrac] at h

/-- C6 amended: in the scenario comet at `head_position = 0`, the only
trail offset `k < 4` whose position `0 − k × 1` is on-strip is `k = 0`
(position 0), with `frac = (4−0)/4 = 1` and written brightness
`0.8 × 1² = 0.8`. -/
theorem C6_scenario_amended :
    (∀ k : ℕ, k < 4 →
        ((0 ≤ (0 : ℤ) - (k : ℤ) * 1 ∧ (0 : ℤ) - (k : ℤ) * 1 < 10) ↔ k = 0)) ∧
      cometFrac 4 0 = 1 ∧
      (cometSubframe 10 4 1 (0.8) 0 wS10).2.drop 10
        = [⟨0 - 0 * 1, COMET_HUE, COMET_SAT * cometFrac 4 0,
            (0.8 : ℚ) * (cometFrac 4 0 * cometFrac 4 0)⟩] ∧
      (0.8 : ℚ) * (cometFrac 4 0 * cometFrac 4 0) = 0.8 := by
  refine ⟨by decide, by norm_num [cometFrac], by with_unfolding_all rfl, ?_⟩
  norm_num [cometFrac]

/-- Witness for C7 at the concrete draw `x = 1/2`. -/
theorem C7_random_star_brightness_bias_witness :
    random_star_brightness (1/2)
        = STAR_MIN_BRIGHT + (1/2) * (1/2) * (STAR_MAX_BRIGHT - STAR_MIN_BRIGHT) ∧
      STAR_MIN_BRIGHT ≤ random_star_brightness (1/2) ∧
      random_star_brightness (1/2) ≤ STAR_MAX_BRIGHT ∧
      random_star_brightness (1/2)
        ≤ STAR_MIN_BRIGHT + (1/2) * (STAR_MAX_BRIGHT - STAR_MIN_BRIGHT) :=
  C7_random_star_brightness_bias (1/2) (by norm_num) (by norm_num)

end Starfield
